import Mathlib

/-!
Verification of the Cython recommendation kernels in
`src/cython_recommendations.pyx`.

The source defines three routines over dense `float64` numpy arrays:

* `compute_user_similarity_matrix (matrix : U×P, vector : P) → U`
  (spec name: UserSimilarity);
* `compute_product_similarity (liked : L×F, product : 1×F) → L`
  (spec name: ProductSimilarity);
* `compute_dot_product_batch (A : N×M, B : K×M) → N×K`
  (spec name: BatchDotProduct).

We model a `np.ndarray[DTYPE_t, ndim=2]` as a shape `(rows, cols)` together
with a total entry function, and a `ndim=1` array as a length with a total
entry function; entries are real numbers (the idealisation of `float64`
arithmetic, which is how the spec's algebraic claims are read).  Loop
accumulations `acc = 0.0; for j in range(n): acc += f j` are modelled by a
left fold over `List.range n`, preserving the source's summation order.
-/

/-- Model of a 2-dimensional `float64` numpy array: a shape `(rows, cols)`
with a total entry function (indexing mirrors `a[i, j]`). -/
structure Array2 where
  rows : ℕ
  cols : ℕ
  entry : ℕ → ℕ → ℝ

/-- Model of a 1-dimensional `float64` numpy array: a length with a total
entry function (indexing mirrors `v[j]`). -/
structure Array1 where
  size : ℕ
  entry : ℕ → ℝ

/-- Accumulation `acc = 0.0; for j in range(n): acc += f j` — a left fold in the
source's accumulation order. -/
noncomputable def rangeSum (n : ℕ) (f : ℕ → ℝ) : ℝ :=
  (List.range n).foldl (fun acc j => acc + f j) 0

/-- Embedding of `compute_user_similarity_matrix` (lines 15-66 of
`cython_recommendations.pyx`).  `num_users` and `num_products` are the
matrix's shape; the reference norm is accumulated first; if it is zero the
zero-initialised `similarities` array is returned at line 47; otherwise each
entry is set at line 64 exactly when the row norm is positive, and is left
at its zero initialisation otherwise. -/
noncomputable def compute_user_similarity_matrix
    (user_product_matrix : Array2) (user_vector : Array1) : List ℝ :=
  let num_users := user_product_matrix.rows
  let num_products := user_product_matrix.cols
  let user_norm_sq :=
    rangeSum num_products (fun j => user_vector.entry j * user_vector.entry j)
  let norm_user := Real.sqrt user_norm_sq
  if norm_user = 0 then
    List.replicate num_users 0
  else
    (List.range num_users).map (fun i =>
      let dot_product :=
        rangeSum num_products
          (fun j => user_vector.entry j * user_product_matrix.entry i j)
      let norm_other_sq :=
        rangeSum num_products
          (fun j => user_product_matrix.entry i j * user_product_matrix.entry i j)
      let norm_other := Real.sqrt norm_other_sq
      if norm_other > 0 then dot_product / (norm_user * norm_other) else 0)

/-- Embedding of `compute_product_similarity` (lines 71-122).  Identical
structure, except the reference vector is read as `product_features[0, j]`
and the shape is taken from `liked_features`. -/
noncomputable def compute_product_similarity
    (liked_features : Array2) (product_features : Array2) : List ℝ :=
  let num_liked := liked_features.rows
  let num_features := liked_features.cols
  let product_norm_sq :=
    rangeSum num_features
      (fun j => product_features.entry 0 j * product_features.entry 0 j)
  let norm_product := Real.sqrt product_norm_sq
  if norm_product = 0 then
    List.replicate num_liked 0
  else
    (List.range num_liked).map (fun i =>
      let dot_product :=
        rangeSum num_features
          (fun j => product_features.entry 0 j * liked_features.entry i j)
      let norm_liked_sq :=
        rangeSum num_features
          (fun j => liked_features.entry i j * liked_features.entry i j)
      let norm_liked := Real.sqrt norm_liked_sq
      if norm_liked > 0 then dot_product / (norm_product * norm_liked) else 0)

/-- Embedding of `compute_dot_product_batch` (lines 127-158).  `n` and `m`
come from `matrix_a`'s shape, `k` from `matrix_b`'s row count; each cell is
an independent accumulation over `idx in range(m)`. -/
noncomputable def compute_dot_product_batch
    (matrix_a : Array2) (matrix_b : Array2) : List (List ℝ) :=
  let n := matrix_a.rows
  let k := matrix_b.rows
  let m := matrix_a.cols
  (List.range n).map (fun i =>
    (List.range k).map (fun j =>
      rangeSum m (fun idx => matrix_a.entry i idx * matrix_b.entry j idx)))

/-! ### Basic lemmas about the embedding -/

theorem rangeSum_succ (n : ℕ) (f : ℕ → ℝ) :
    rangeSum (n + 1) f = rangeSum n f + f n := by
  unfold rangeSum
  rw [List.range_succ, List.foldl_append]
  rfl

theorem rangeSum_eq_sum (n : ℕ) (f : ℕ → ℝ) :
    rangeSum n f = ∑ j ∈ Finset.range n, f j := by
  induction n with
  | zero => rfl
  | succ n ih => rw [rangeSum_succ, ih, Finset.sum_range_succ]

theorem rangeSum_sq_nonneg (n : ℕ) (f : ℕ → ℝ) :
    0 ≤ rangeSum n (fun j => f j * f j) := by
  rw [rangeSum_eq_sum]
  exact Finset.sum_nonneg fun j _ => mul_self_nonneg (f j)

theorem getD_map_range {α : Type*} (n : ℕ) (f : ℕ → α) (d : α) (i : ℕ)
    (hi : i < n) : (((List.range n).map f).getD i d) = f i := by
  rw [List.getD_eq_getElem _ _ (by simpa using hi)]
  simp

theorem rangeSum_congr (n : ℕ) (f g : ℕ → ℝ) (h : ∀ j, j < n → f j = g j) :
    rangeSum n f = rangeSum n g := by
  rw [rangeSum_eq_sum, rangeSum_eq_sum]
  exact Finset.sum_congr rfl fun j hj => h j (Finset.mem_range.mp hj)

/-- Cauchy-Schwarz in the accumulation form used by the source:
`|Σ f·g| ≤ sqrt(Σ f²) · sqrt(Σ g²)`. -/
theorem abs_rangeSum_mul_le (n : ℕ) (f g : ℕ → ℝ) :
    |rangeSum n fun j => f j * g j| ≤
      Real.sqrt (rangeSum n fun j => f j * f j) *
        Real.sqrt (rangeSum n fun j => g j * g j) := by
  simp only [rangeSum_eq_sum]
  have hsq : ∀ h : ℕ → ℝ, (∑ j ∈ Finset.range n, h j * h j)
      = ∑ j ∈ Finset.range n, h j ^ 2 := by
    intro h; exact Finset.sum_congr rfl fun j _ => (sq (h j)).symm
  rw [hsq f, hsq g, abs_le]
  constructor
  · have h := Real.sum_mul_le_sqrt_mul_sqrt (Finset.range n) (fun j => -f j) g
    have e1 : (∑ j ∈ Finset.range n, -f j * g j)
        = -∑ j ∈ Finset.range n, f j * g j := by
      rw [← Finset.sum_neg_distrib]
      exact Finset.sum_congr rfl fun j _ => by ring
    have e2 : (∑ j ∈ Finset.range n, (-f j) ^ 2)
        = ∑ j ∈ Finset.range n, f j ^ 2 :=
      Finset.sum_congr rfl fun j _ => by ring
    rw [e1, e2] at h
    linarith
  · exact Real.sum_mul_le_sqrt_mul_sqrt _ _ _

theorem userSim_length (m : Array2) (v : Array1) :
    (compute_user_similarity_matrix m v).length = m.rows := by
  unfold compute_user_similarity_matrix
  by_cases h : Real.sqrt (rangeSum m.cols fun j => v.entry j * v.entry j) = 0 <;>
    simp [h]

theorem productSim_length (liked product_features : Array2) :
    (compute_product_similarity liked product_features).length = liked.rows := by
  unfold compute_product_similarity
  by_cases h : Real.sqrt (rangeSum liked.cols fun j =>
      product_features.entry 0 j * product_features.entry 0 j) = 0 <;>
    simp [h]

theorem batch_length (a b : Array2) :
    (compute_dot_product_batch a b).length = a.rows := by
  unfold compute_dot_product_batch
  simp

theorem batch_row_length (a b : Array2) :
    ∀ r ∈ compute_dot_product_batch a b, r.length = b.rows := by
  unfold compute_dot_product_batch
  intro r hr
  obtain ⟨i, _, rfl⟩ := List.mem_map.mp hr
  simp

theorem rangeSum_mul_self_eq (n : ℕ) (f : ℕ → ℝ) :
    (rangeSum n fun j => f j * f j) = ∑ j ∈ Finset.range n, f j ^ 2 := by
  rw [rangeSum_eq_sum]
  exact Finset.sum_congr rfl fun j _ => (sq (f j)).symm

theorem sqrt_pos_of_ne_zero {x : ℝ} (h : Real.sqrt x ≠ 0) : 0 < Real.sqrt x :=
  lt_of_le_of_ne (Real.sqrt_nonneg x) (Ne.symm h)

/-- Early return at line 47: a zero reference norm yields the
zero-initialised output. -/
theorem userSim_zero_ref (m : Array2) (v : Array1)
    (h : Real.sqrt (rangeSum m.cols fun j => v.entry j * v.entry j) = 0) :
    compute_user_similarity_matrix m v = List.replicate m.rows 0 := by
  unfold compute_user_similarity_matrix
  simp [h]

/-- Entry characterisation when the reference norm is nonzero. -/
theorem userSim_entry (m : Array2) (v : Array1) (i : ℕ) (hi : i < m.rows)
    (hnu : Real.sqrt (rangeSum m.cols fun j => v.entry j * v.entry j) ≠ 0) :
    (compute_user_similarity_matrix m v).getD i 0 =
      if Real.sqrt (rangeSum m.cols fun j => m.entry i j * m.entry i j) > 0
      then (rangeSum m.cols fun j => v.entry j * m.entry i j) /
          (Real.sqrt (rangeSum m.cols fun j => v.entry j * v.entry j) *
            Real.sqrt (rangeSum m.cols fun j => m.entry i j * m.entry i j))
      else 0 := by
  unfold compute_user_similarity_matrix
  simp only [if_neg hnu]
  rw [getD_map_range _ _ _ _ hi]

theorem batch_entry (a b : Array2) (i j : ℕ) (hi : i < a.rows)
    (hj : j < b.rows) :
    ((compute_dot_product_batch a b).getD i []).getD j 0 =
      rangeSum a.cols fun idx => a.entry i idx * b.entry j idx := by
  unfold compute_dot_product_batch
  rw [getD_map_range _ _ _ _ hi, getD_map_range _ _ _ _ hj]

theorem rangeSum_one (f : ℕ → ℝ) : rangeSum 1 f = 0 + f 0 := rfl

theorem rangeSum_two (f : ℕ → ℝ) : rangeSum 2 f = 0 + f 0 + f 1 := rfl

/-- The 2×2 example matrix `[[1,2],[3,4]]` from the spec's §8 test vector. -/
def matA : Array2 :=
  ⟨2, 2, fun i j => if i = 0 then (if j = 0 then 1 else 2)
    else (if j = 0 then 3 else 4)⟩

/-- The 1×2 example matrix `[[5,6]]` from the spec's §8 test vector. -/
def matB : Array2 := ⟨1, 2, fun _ j => if j = 0 then 5 else 6⟩

/-- C3: `compute_dot_product_batch` returns an N×K matrix whose `(i,j)`
cell is `Σ_idx A[i][idx] * B[j][idx]`. -/
theorem batch_dot_product_spec (a b : Array2) :
    (compute_dot_product_batch a b).length = a.rows ∧
    (∀ r ∈ compute_dot_product_batch a b, r.length = b.rows) ∧
    ∀ i j, i < a.rows → j < b.rows →
      ((compute_dot_product_batch a b).getD i []).getD j 0 =
        ∑ idx ∈ Finset.range a.cols, a.entry i idx * b.entry j idx :=
  ⟨batch_length a b, batch_row_length a b, fun i j hi hj => by
    rw [batch_entry a b i j hi hj, rangeSum_eq_sum]⟩

/-- C3 witness: `BatchDotProduct([[1,2],[3,4]], [[5,6]]) = [[17],[39]]`
cellwise (1·5+2·6 = 17, 3·5+4·6 = 39). -/
theorem batch_dot_product_spec_witness :
    (0 : ℕ) < matA.rows ∧ (1 : ℕ) < matA.rows ∧ (0 : ℕ) < matB.rows ∧
    ((compute_dot_product_batch matA matB).getD 0 []).getD 0 0 = 17 ∧
    ((compute_dot_product_batch matA matB).getD 1 []).getD 0 0 = 39 := by
  refine ⟨by norm_num [matA], by norm_num [matA], by norm_num [matB], ?_, ?_⟩
  · have h := (batch_dot_product_spec matA matB).2.2 0 0
      (by norm_num [matA]) (by norm_num [matB])
    rw [h]
    norm_num [matA, matB, Finset.sum_range_succ]
  · have h := (batch_dot_product_spec matA matB).2.2 1 0
      (by norm_num [matA]) (by norm_num [matB])
    rw [h]
    norm_num [matA, matB, Finset.sum_range_succ]

/-- C10: the reduction length comes from `matrix_a.shape[1]` (line 145); a
wider `matrix_b` is accepted, its trailing columns never read: the result
only sums over the first `a.cols` indices, and replacing `b` by any matrix
agreeing with it on those indices (and with the same row count) leaves the
result unchanged. -/
theorem batch_dot_product_truncates (a b : Array2) (_hwide : a.cols ≤ b.cols) :
    (compute_dot_product_batch a b).length = a.rows ∧
    (∀ r ∈ compute_dot_product_batch a b, r.length = b.rows) ∧
    (∀ i j, i < a.rows → j < b.rows →
      ((compute_dot_product_batch a b).getD i []).getD j 0 =
        ∑ idx ∈ Finset.range a.cols, a.entry i idx * b.entry j idx) ∧
    ∀ bAlt : Array2, bAlt.rows = b.rows →
      (∀ j idx, idx < a.cols → bAlt.entry j idx = b.entry j idx) →
      compute_dot_product_batch a bAlt = compute_dot_product_batch a b := by
  refine ⟨batch_length a b, batch_row_length a b, fun i j hi hj => by
    rw [batch_entry a b i j hi hj, rangeSum_eq_sum], fun bAlt hrows hagree => ?_⟩
  unfold compute_dot_product_batch
  rw [hrows]
  refine List.map_congr_left fun i _ => ?_
  refine List.map_congr_left fun j _ => ?_
  exact rangeSum_congr _ _ _ fun idx hidx => by rw [hagree j idx hidx]

/-- The 1×3 matrix `[[5,6,7]]`: `matB` padded with one extra column. -/
def matBwide : Array2 :=
  ⟨1, 3, fun _ j => if j = 0 then 5 else if j = 1 then 6 else 7⟩

/-- C10 witness: with A = `[[1,2],[3,4]]` (2 columns) and B = `[[5,6,7]]`
(3 columns), the wider B is accepted and gives the same result as
`[[5,6]]`. -/
theorem batch_dot_product_truncates_witness :
    matA.cols ≤ matBwide.cols ∧
    ((compute_dot_product_batch matA matBwide).getD 0 []).getD 0 0 = 17 ∧
    compute_dot_product_batch matA matBwide =
      compute_dot_product_batch matA matB := by
  have h := batch_dot_product_truncates matA matBwide
    (by norm_num [matA, matBwide])
  refine ⟨by norm_num [matA, matBwide], ?_, ?_⟩
  · rw [h.2.2.1 0 0 (by norm_num [matA]) (by norm_num [matBwide])]
    norm_num [matA, matBwide, Finset.sum_range_succ]
  · have hb := h.2.2.2 matB (by norm_num [matB, matBwide])
      (fun j idx hidx => by
        have h2 : idx < 2 := by simpa [matA] using hidx
        interval_cases idx <;> norm_num [matB, matBwide])
    exact hb.symm

/-- The 1×1 matrix `[[1]]` (one column, mismatching `misB`). -/
def misA : Array2 := ⟨1, 1, fun _ _ => 1⟩

/-- The 1×2 matrix `[[2,3]]` (two columns, mismatching `misA`). -/
def misB : Array2 := ⟨1, 2, fun _ j => if j = 0 then 2 else 3⟩

/-- The 1×2 matrix `[[3,4]]`. -/
def misM : Array2 := ⟨1, 2, fun _ j => if j = 0 then 3 else 4⟩

/-- Length-3 vector `[3,4,99]` (longer than `misM`'s 2 columns). -/
def misV : Array1 := ⟨3, fun j => if j = 0 then 3 else if j = 1 then 4 else 99⟩

theorem sqrt_twentyfive : Real.sqrt 25 = 5 := by
  rw [show (25 : ℝ) = 5 ^ 2 by norm_num]
  exact Real.sqrt_sq (by norm_num)

/-- C2 counterexample: no routine signals a dimension mismatch.  With
column counts 1 vs 2, `compute_dot_product_batch [[1]] [[2,3]]` silently
returns the complete result `[[2]]` (reducing over the first argument's
single column); with a 1×2 matrix and a length-3 vector,
`compute_user_similarity_matrix [[3,4]] [3,4,99]` silently returns `[1]`,
computed from the vector's first two entries only.  Both executions stay
in bounds in the source, so this is its defined behaviour. -/
theorem dimension_mismatch_not_signalled :
    misA.cols ≠ misB.cols ∧
    compute_dot_product_batch misA misB = [[2]] ∧
    misM.cols ≠ misV.size ∧
    compute_user_similarity_matrix misM misV = [1] := by
  refine ⟨by norm_num [misA, misB], ?_, by norm_num [misM, misV], ?_⟩
  · unfold compute_dot_product_batch
    norm_num [misA, misB, List.range_succ, rangeSum_one]
  · unfold compute_user_similarity_matrix
    have hn : (rangeSum misM.cols fun j => misV.entry j * misV.entry j)
        = 25 := by norm_num [misM, misV, rangeSum_two]
    norm_num [hn, sqrt_twentyfive, List.range_succ, rangeSum_two, misM, misV]

/-- C2 amended: the source performs no dimension validation at all.  Each
routine unconditionally returns a result of the documented shape; the
similarity routine reads only the first `matrix.cols` entries of the
vector (its declared size is never consulted), and the batch routine
reduces over the first matrix's column count — mismatched inputs whose
reads stay in bounds are processed silently rather than rejected. -/
theorem no_dimension_validation (m : Array2) (v vAlt : Array1) (a b : Array2)
    (hagree : ∀ j, j < m.cols → vAlt.entry j = v.entry j) :
    compute_user_similarity_matrix m vAlt = compute_user_similarity_matrix m v ∧
    (compute_user_similarity_matrix m v).length = m.rows ∧
    (compute_dot_product_batch a b).length = a.rows ∧
    ∀ r ∈ compute_dot_product_batch a b, r.length = b.rows := by
  refine ⟨?_, userSim_length m v, batch_length a b, batch_row_length a b⟩
  have hnorm : (rangeSum m.cols fun j => vAlt.entry j * vAlt.entry j)
      = rangeSum m.cols fun j => v.entry j * v.entry j :=
    rangeSum_congr _ _ _ fun j hj => by rw [hagree j hj]
  have hdot : ∀ i, (rangeSum m.cols fun j => vAlt.entry j * m.entry i j)
      = rangeSum m.cols fun j => v.entry j * m.entry i j :=
    fun i => rangeSum_congr _ _ _ fun j hj => by rw [hagree j hj]
  unfold compute_user_similarity_matrix
  simp only [hnorm, hdot]

/-- C2 amended-claim witness: vectors `[3,4,99]` (size 3) and `[3,4]`
(size 2) agree on `misM`'s 2 columns, so the mismatched-size call returns
the well-matched call's answer. -/
theorem no_dimension_validation_witness :
    compute_user_similarity_matrix misM misV =
      compute_user_similarity_matrix misM ⟨2, fun j => if j = 0 then 3 else 4⟩ ∧
    (compute_user_similarity_matrix misM
      ⟨2, fun j => if j = 0 then 3 else 4⟩).length = 1 := by
  have h := no_dimension_validation misM
    ⟨2, fun j => if j = 0 then 3 else 4⟩ misV misA misB
    (fun j hj => by
      have h2 : j < 2 := by simpa [misM] using hj
      interval_cases j <;> norm_num [misV])
  exact ⟨h.1, by simpa [misM] using h.2.1⟩

/-- C1: with a nonzero-norm reference vector, the output has length U and
each entry at a nonzero-norm row i is exactly
`(Σ_j v[j]·m[i][j]) / (sqrt(Σ_j v[j]²) · sqrt(Σ_j m[i][j]²))`. -/
theorem user_similarity_cosine (m : Array2) (v : Array1)
    (_hsize : v.size = m.cols)
    (hnorm : Real.sqrt (∑ j ∈ Finset.range m.cols, v.entry j ^ 2) ≠ 0) :
    (compute_user_similarity_matrix m v).length = m.rows ∧
    ∀ i, i < m.rows →
      Real.sqrt (∑ j ∈ Finset.range m.cols, m.entry i j ^ 2) ≠ 0 →
      (compute_user_similarity_matrix m v).getD i 0 =
        (∑ j ∈ Finset.range m.cols, v.entry j * m.entry i j) /
          (Real.sqrt (∑ j ∈ Finset.range m.cols, v.entry j ^ 2) *
            Real.sqrt (∑ j ∈ Finset.range m.cols, m.entry i j ^ 2)) := by
  have hnu : Real.sqrt (rangeSum m.cols fun j => v.entry j * v.entry j) ≠ 0 := by
    rw [rangeSum_mul_self_eq]; exact hnorm
  refine ⟨userSim_length m v, fun i hi hrow => ?_⟩
  have hro : Real.sqrt (rangeSum m.cols fun j => m.entry i j * m.entry i j)
      ≠ 0 := by
    rw [rangeSum_mul_self_eq]; exact hrow
  rw [userSim_entry m v i hi hnu, if_pos (sqrt_pos_of_ne_zero hro),
    rangeSum_eq_sum, rangeSum_mul_self_eq, rangeSum_mul_self_eq]

/-- The 1×1 matrix `[[1]]`. -/
def oneM : Array2 := ⟨1, 1, fun _ _ => 1⟩

/-- Length-1 vector `[1]`. -/
def oneV : Array1 := ⟨1, fun _ => 1⟩

/-- C1 witness at matrix `[[1]]`, vector `[1]`: both norms are 1, and
entry 0 is `1 / (1·1)`. -/
theorem user_similarity_cosine_witness :
    oneV.size = oneM.cols ∧
    Real.sqrt (∑ j ∈ Finset.range oneM.cols, oneV.entry j ^ 2) ≠ 0 ∧
    (0 : ℕ) < oneM.rows ∧
    Real.sqrt (∑ j ∈ Finset.range oneM.cols, oneM.entry 0 j ^ 2) ≠ 0 ∧
    (compute_user_similarity_matrix oneM oneV).getD 0 0 =
      (∑ j ∈ Finset.range oneM.cols, oneV.entry j * oneM.entry 0 j) /
        (Real.sqrt (∑ j ∈ Finset.range oneM.cols, oneV.entry j ^ 2) *
          Real.sqrt (∑ j ∈ Finset.range oneM.cols, oneM.entry 0 j ^ 2)) := by
  have h1 : Real.sqrt (∑ j ∈ Finset.range oneM.cols, oneV.entry j ^ 2) ≠ 0 := by
    norm_num [oneM, oneV, Finset.sum_range_succ]
  have h2 : Real.sqrt (∑ j ∈ Finset.range oneM.cols, oneM.entry 0 j ^ 2)
      ≠ 0 := by
    norm_num [oneM, Finset.sum_range_succ]
  exact ⟨rfl, h1, by norm_num [oneM], h2,
    (user_similarity_cosine oneM oneV rfl h1).2 0 (by norm_num [oneM]) h2⟩

theorem getD_replicate_zero {α : Type*} (n i : ℕ) (x : α) :
    (List.replicate n x).getD i x = x := by
  induction n generalizing i with
  | zero => cases i <;> rfl
  | succ n ih => cases i with
    | zero => rfl
    | succ i => exact ih i

/-- C4: the zero-reference-norm early return yields all zeros; a
zero-norm row is left at 0; and every entry is either 0 or a quotient
taken with both norms strictly positive — division by zero is never
performed. -/
theorem user_similarity_never_divides_by_zero (m : Array2) (v : Array1) :
    (Real.sqrt (rangeSum m.cols fun j => v.entry j * v.entry j) = 0 →
      compute_user_similarity_matrix m v = List.replicate m.rows 0) ∧
    ∀ i, i < m.rows →
      (Real.sqrt (rangeSum m.cols fun j => m.entry i j * m.entry i j) = 0 →
        (compute_user_similarity_matrix m v).getD i 0 = 0) ∧
      ((compute_user_similarity_matrix m v).getD i 0 = 0 ∨
        (0 < Real.sqrt (rangeSum m.cols fun j => v.entry j * v.entry j) ∧
          0 < Real.sqrt (rangeSum m.cols fun j => m.entry i j * m.entry i j) ∧
          (compute_user_similarity_matrix m v).getD i 0 =
            (rangeSum m.cols fun j => v.entry j * m.entry i j) /
              (Real.sqrt (rangeSum m.cols fun j => v.entry j * v.entry j) *
                Real.sqrt (rangeSum m.cols fun j =>
                  m.entry i j * m.entry i j)))) := by
  refine ⟨userSim_zero_ref m v, fun i hi => ?_⟩
  by_cases hnu : Real.sqrt (rangeSum m.cols fun j => v.entry j * v.entry j) = 0
  · refine ⟨fun _ => ?_, Or.inl ?_⟩ <;>
      rw [userSim_zero_ref m v hnu, getD_replicate_zero]
  · have hent := userSim_entry m v i hi hnu
    by_cases hro : Real.sqrt (rangeSum m.cols fun j =>
        m.entry i j * m.entry i j) > 0
    · refine ⟨fun h0 => absurd (h0 ▸ hro) (lt_irrefl 0), Or.inr
        ⟨sqrt_pos_of_ne_zero hnu, hro, by rw [hent, if_pos hro]⟩⟩
    · exact ⟨fun _ => by rw [hent, if_neg hro], Or.inl (by rw [hent, if_neg hro])⟩

/-- Length-1 zero vector `[0]`. -/
def zeroV : Array1 := ⟨1, fun _ => 0⟩

/-- The 1×1 zero matrix `[[0]]`. -/
def zeroM : Array2 := ⟨1, 1, fun _ _ => 0⟩

/-- C4 witness: the zero vector against `[[1]]` returns `[0]` via the
early return, and the nonzero vector `[1]` against the zero matrix leaves
entry 0 at 0. -/
theorem user_similarity_never_divides_by_zero_witness :
    compute_user_similarity_matrix oneM zeroV = List.replicate 1 0 ∧
    (compute_user_similarity_matrix zeroM oneV).getD 0 0 = 0 := by
  constructor
  · have h0 : Real.sqrt (rangeSum oneM.cols fun j =>
        zeroV.entry j * zeroV.entry j) = 0 := by
      norm_num [oneM, zeroV, rangeSum_one]
    have h := (user_similarity_never_divides_by_zero oneM zeroV).1 h0
    simpa [oneM] using h
  · have hr0 : Real.sqrt (rangeSum zeroM.cols fun j =>
        zeroM.entry 0 j * zeroM.entry 0 j) = 0 := by
      norm_num [zeroM, rangeSum_one]
    exact ((user_similarity_never_divides_by_zero zeroM oneV).2 0
      (by norm_num [zeroM])).1 hr0

/-- The two similarity routines are literally the same computation once
the reference row is extracted: shared by the refinement and range-bound
developments. -/
theorem productSim_as_userSim (liked product_features : Array2) :
    compute_product_similarity liked product_features =
      compute_user_similarity_matrix liked
        ⟨product_features.cols, fun j => product_features.entry 0 j⟩ := rfl

/-- C5: `compute_product_similarity liked p` equals
`compute_user_similarity_matrix liked v` where `v` is row 0 of `p`. -/
theorem product_similarity_refines_user_similarity
    (liked product_features : Array2) (_hrow : product_features.rows = 1)
    (_hcols : product_features.cols = liked.cols) :
    compute_product_similarity liked product_features =
      compute_user_similarity_matrix liked
        ⟨product_features.cols, fun j => product_features.entry 0 j⟩ :=
  productSim_as_userSim liked product_features

/-- C5 witness at `liked = [[1]]`, `product = [[1]]`. -/
theorem product_similarity_refines_user_similarity_witness :
    oneM.rows = 1 ∧ oneM.cols = oneM.cols ∧
    compute_product_similarity oneM oneM =
      compute_user_similarity_matrix oneM
        ⟨oneM.cols, fun j => oneM.entry 0 j⟩ :=
  ⟨rfl, rfl, product_similarity_refines_user_similarity oneM oneM rfl rfl⟩

/-- C6: scaling the reference vector by a positive constant leaves the
output unchanged: the norm scales by `c`, the dot products scale by `c`,
and the quotient cancels. -/
theorem user_similarity_scale_invariant (m : Array2) (v : Array1) (c : ℝ)
    (_hsize : v.size = m.cols) (hc : 0 < c) :
    compute_user_similarity_matrix m ⟨v.size, fun j => c * v.entry j⟩ =
      compute_user_similarity_matrix m v := by
  have hS : (rangeSum m.cols fun j => c * v.entry j * (c * v.entry j))
      = c ^ 2 * rangeSum m.cols fun j => v.entry j * v.entry j := by
    rw [rangeSum_eq_sum, rangeSum_eq_sum, Finset.mul_sum]
    exact Finset.sum_congr rfl fun j _ => by ring
  have hsqrtS : Real.sqrt (rangeSum m.cols fun j =>
        c * v.entry j * (c * v.entry j))
      = c * Real.sqrt (rangeSum m.cols fun j => v.entry j * v.entry j) := by
    rw [hS, Real.sqrt_mul (sq_nonneg c), Real.sqrt_sq hc.le]
  have hdot : ∀ i, (rangeSum m.cols fun j => c * v.entry j * m.entry i j)
      = c * rangeSum m.cols fun j => v.entry j * m.entry i j := by
    intro i
    rw [rangeSum_eq_sum, rangeSum_eq_sum, Finset.mul_sum]
    exact Finset.sum_congr rfl fun j _ => by ring
  unfold compute_user_similarity_matrix
  simp only [hsqrtS, hdot]
  by_cases h0 : Real.sqrt (rangeSum m.cols fun j => v.entry j * v.entry j) = 0
  · rw [if_pos (by rw [h0, mul_zero]), if_pos h0]
  · rw [if_neg (mul_ne_zero hc.ne' h0), if_neg h0]
    refine List.map_congr_left fun i _ => ?_
    by_cases hro : Real.sqrt (rangeSum m.cols fun j =>
        m.entry i j * m.entry i j) > 0
    · rw [if_pos hro, if_pos hro, mul_assoc, mul_div_mul_left _ _ hc.ne']
    · rw [if_neg hro, if_neg hro]

/-- C6 witness at matrix `[[1]]`, vector `[1]`, scale `c = 2`. -/
theorem user_similarity_scale_invariant_witness :
    oneV.size = oneM.cols ∧ (0 : ℝ) < 2 ∧
    compute_user_similarity_matrix oneM ⟨oneV.size, fun j => 2 * oneV.entry j⟩ =
      compute_user_similarity_matrix oneM oneV :=
  ⟨rfl, by norm_num,
    user_similarity_scale_invariant oneM oneV 2 rfl (by norm_num)⟩

/-- Every element of the user-similarity output lies in `[-1, 1]`: shared
Cauchy-Schwarz bound for both similarity routines. -/
theorem userSim_mem_bound (m : Array2) (v : Array1) :
    ∀ x ∈ compute_user_similarity_matrix m v, -1 ≤ x ∧ x ≤ 1 := by
  intro x hx
  unfold compute_user_similarity_matrix at hx
  by_cases hnu : Real.sqrt (rangeSum m.cols fun j => v.entry j * v.entry j) = 0
  · rw [if_pos hnu] at hx
    rw [List.eq_of_mem_replicate hx]
    norm_num
  · rw [if_neg hnu] at hx
    obtain ⟨i, hi, rfl⟩ := List.mem_map.mp hx
    dsimp only
    by_cases hro : Real.sqrt (rangeSum m.cols fun j =>
        m.entry i j * m.entry i j) > 0
    · rw [if_pos hro]
      have hCS := abs_rangeSum_mul_le m.cols v.entry (fun j => m.entry i j)
      have hnu' : 0 < Real.sqrt (rangeSum m.cols fun j =>
          v.entry j * v.entry j) := sqrt_pos_of_ne_zero hnu
      have hpos : 0 < Real.sqrt (rangeSum m.cols fun j =>
            v.entry j * v.entry j) *
          Real.sqrt (rangeSum m.cols fun j => m.entry i j * m.entry i j) :=
        mul_pos hnu' hro
      obtain ⟨hlo, hhi⟩ := abs_le.mp hCS
      constructor
      · rw [le_div_iff₀ hpos]
        linarith
      · rw [div_le_one hpos]
        exact hhi
    · rw [if_neg hro]
      norm_num

/-- C7: every output element of both similarity routines lies in
`[-1, 1]`: quotient entries are bounded by Cauchy-Schwarz, all other
entries are exactly 0. -/
theorem similarity_range_bound (m : Array2) (v : Array1)
    (liked product_features : Array2) :
    (∀ x ∈ compute_user_similarity_matrix m v, -1 ≤ x ∧ x ≤ 1) ∧
    ∀ x ∈ compute_product_similarity liked product_features,
      -1 ≤ x ∧ x ≤ 1 := by
  refine ⟨userSim_mem_bound m v, ?_⟩
  rw [productSim_as_userSim]
  exact userSim_mem_bound _ _

theorem userSim_oneM_oneV : compute_user_similarity_matrix oneM oneV = [1] := by
  unfold compute_user_similarity_matrix
  norm_num [oneM, oneV, rangeSum_one, List.range_succ]

/-- C7 witness: the computed similarity `1` at matrix `[[1]]`, vector
`[1]` is a member of the output and the theorem bounds it within
`[-1, 1]`. -/
theorem similarity_range_bound_witness :
    (1 : ℝ) ∈ compute_user_similarity_matrix oneM oneV ∧
    -1 ≤ (1 : ℝ) ∧ (1 : ℝ) ≤ 1 := by
  have hmem : (1 : ℝ) ∈ compute_user_similarity_matrix oneM oneV := by
    rw [userSim_oneM_oneV]
    exact List.mem_singleton.mpr rfl
  exact ⟨hmem, (similarity_range_bound oneM oneV oneM oneM).1 1 hmem⟩

/-- C8: output shapes follow the documented table for all inputs,
including degenerate zero-row / zero-column operands. -/
theorem shape_propagation (m : Array2) (v : Array1)
    (liked product_features a b : Array2) :
    (compute_user_similarity_matrix m v).length = m.rows ∧
    (compute_product_similarity liked product_features).length = liked.rows ∧
    (compute_dot_product_batch a b).length = a.rows ∧
    ∀ r ∈ compute_dot_product_batch a b, r.length = b.rows :=
  ⟨userSim_length m v, productSim_length liked product_features,
    batch_length a b, batch_row_length a b⟩

/-- A 0×3 matrix: zero rows, three columns. -/
def emptyRowsM : Array2 := ⟨0, 3, fun _ _ => 0⟩

/-- Length-3 vector `[1,1,1]`. -/
def threeV : Array1 := ⟨3, fun _ => 1⟩

/-- A 1×2 matrix of ones. -/
def oneTwoM : Array2 := ⟨1, 2, fun _ _ => 1⟩

/-- A 0×2 matrix: zero rows, two columns. -/
def emptyRowsB : Array2 := ⟨0, 2, fun _ _ => 1⟩

/-- C8 witness on degenerate shapes: a 0×3 matrix gives an empty
similarity vector, and a K=0 second operand gives a 1×0 result (one empty
row). -/
theorem shape_propagation_witness :
    (compute_user_similarity_matrix emptyRowsM threeV).length = 0 ∧
    (compute_dot_product_batch oneTwoM emptyRowsB).length = 1 ∧
    ∃ r ∈ compute_dot_product_batch oneTwoM emptyRowsB, r.length = 0 := by
  have h := shape_propagation emptyRowsM threeV emptyRowsM emptyRowsM
    oneTwoM emptyRowsB
  refine ⟨by simpa [emptyRowsM] using h.1, by simpa [oneTwoM] using h.2.2.1, ?_⟩
  have hmem : ([] : List ℝ) ∈ compute_dot_product_batch oneTwoM emptyRowsB := by
    unfold compute_dot_product_batch
    simp [oneTwoM, emptyRowsB, List.range_succ]
  exact ⟨[], hmem, h.2.2.2 [] hmem⟩

/-- C9: `compute_product_similarity` reads its second argument only at
row 0 (lines 99 and 112 index `product_features[0, j]`): any two second
arguments with the same column count and equal first rows give equal
outputs, whatever their row counts. -/
theorem product_similarity_row0_only (liked p1 p2 : Array2)
    (_hcols : p1.cols = p2.cols) (hlc : liked.cols = p1.cols)
    (hrow0 : ∀ j, j < p1.cols → p1.entry 0 j = p2.entry 0 j) :
    compute_product_similarity liked p1 = compute_product_similarity liked p2 := by
  have hnorm : (rangeSum liked.cols fun j => p1.entry 0 j * p1.entry 0 j)
      = rangeSum liked.cols fun j => p2.entry 0 j * p2.entry 0 j :=
    rangeSum_congr _ _ _ fun j hj => by rw [hrow0 j (hlc ▸ hj)]
  have hdot : ∀ i, (rangeSum liked.cols fun j => p1.entry 0 j * liked.entry i j)
      = rangeSum liked.cols fun j => p2.entry 0 j * liked.entry i j :=
    fun i => rangeSum_congr _ _ _ fun j hj => by rw [hrow0 j (hlc ▸ hj)]
  unfold compute_product_similarity
  simp only [hnorm, hdot]

/-- A 3×2 matrix whose row 0 is `[1,1]` and later rows are `[9,9]`. -/
def threeRowP : Array2 := ⟨3, 2, fun i _ => if i = 0 then 1 else 9⟩

/-- The 1×2 matrix `[[1,1]]`: `threeRowP`'s row 0 alone. -/
def oneRowP : Array2 := ⟨1, 2, fun _ _ => 1⟩

/-- C9 witness: a 3-row second argument is processed without error and
gives the same output as the 1-row matrix holding just its row 0. -/
theorem product_similarity_row0_only_witness :
    threeRowP.cols = oneRowP.cols ∧ threeRowP.rows = 3 ∧
    compute_product_similarity oneTwoM threeRowP =
      compute_product_similarity oneTwoM oneRowP :=
  ⟨rfl, rfl, product_similarity_row0_only oneTwoM threeRowP oneRowP rfl rfl
    (fun j _ => by norm_num [threeRowP, oneRowP])⟩
